import Mathlib

/-!
# Verification of the student-service caching subsystem

Shallow embedding of `src/config/redis.js`: the in-memory fallback cache
client (`get`/`set`/`del`/`keys`), the read-through cache middleware
(`cacheData`), the invalidation helper (`clearCache`) and the mutation
routes' invalidation behaviour.

Modelling conventions:
* JSON payloads are the inductive `Json`; the external `JSON.stringify` /
  `JSON.parse` builtins are modelled as a token-level codec
  (`jsonToks` / `deserializeToks`).  A serialized payload (a JavaScript
  string) is modelled as a token list `JStr`; JavaScript string falsiness
  is emptiness of that list.
* The JavaScript `RegExp` used by the fallback `keys` is modelled for
  the fragment reachable from the program's patterns: literal characters,
  `.`, the `*`/`+`/`?` quantifiers, top-level alternation `|` (under
  which the wrapping `^`/`$` anchors bind only to the outermost branches,
  and `test` searches unanchored), and leading/trailing anchors per
  branch.  The residual metacharacters (escapes, groups, classes,
  quantifier braces, mid-branch anchors) get no semantics: a branch
  containing one is modelled as a `RegExp` construction failure, although
  JS compiles some of them.  No theorem quantifies over patterns in that
  residue: statements use concrete patterns or restrict the pattern (or
  the URL-controlled id inside it) to exactly-modelled characters.
* Each cache client operation may fail (connectivity errors of the real
  backend); an operation returns an `OpResult` together with the next
  client state.  The fallback client never fails except for `keys` on an
  ill-formed pattern, exactly as in the source.
* Timer-based TTL expiry of the fallback store is modelled by an explicit
  timer list and an `elapse` function firing the due removals.
-/

set_option linter.all false

namespace StudentCache

/-- JSON values, the payloads the service serves and caches. -/
inductive Json where
  | jnull
  | jbool (b : Bool)
  | jnum (n : Int)
  | jstr (s : String)
  | jarr (elems : List Json)
  | jobj (fields : List (String × Json))

/-- Tokens of the serialized (JSON-text) form of a payload. -/
inductive JTok where
  | tnull
  | tbool (b : Bool)
  | tnum (n : Int)
  | tstr (s : String)
  | tao
  | tac
  | too
  | toc
  deriving DecidableEq, Repr

/-- A JavaScript string holding a serialized payload, modelled as its
token list.  JS falsiness of such a string is emptiness of the list. -/
abbrev JStr := List JTok

mutual

/-- Modelled from the spec: `JSON.stringify` (external platform builtin;
"serialize it and `set` it").  Serialization of a payload into its
token stream. -/
def jsonToks : Json → List JTok
  | .jnull => [.tnull]
  | .jbool b => [.tbool b]
  | .jnum n => [.tnum n]
  | .jstr s => [.tstr s]
  | .jarr es => .tao :: (listToks es ++ [.tac])
  | .jobj fs => .too :: (fieldsToks fs ++ [.toc])

/-- Serialization of an array body. -/
def listToks : List Json → List JTok
  | [] => []
  | e :: es => jsonToks e ++ listToks es

/-- Serialization of an object body. -/
def fieldsToks : List (String × Json) → List JTok
  | [] => []
  | (k, v) :: fs => .tstr k :: (jsonToks v ++ fieldsToks fs)

end

mutual

/-- Fuel-indexed parser for one JSON value (models `JSON.parse`). -/
def parseJ : Nat → List JTok → Option (Json × List JTok)
  | 0, _ => none
  | _ + 1, [] => none
  | f + 1, t :: ts =>
    match t with
    | .tnull => some (.jnull, ts)
    | .tbool b => some (.jbool b, ts)
    | .tnum n => some (.jnum n, ts)
    | .tstr s => some (.jstr s, ts)
    | .tao =>
      match parseL f ts with
      | some (es, ts') => some (.jarr es, ts')
      | none => none
    | .too =>
      match parseF f ts with
      | some (fs, ts') => some (.jobj fs, ts')
      | none => none
    | .tac => none
    | .toc => none

/-- Fuel-indexed parser for the elements of an array, up to `tac`. -/
def parseL : Nat → List JTok → Option (List Json × List JTok)
  | 0, _ => none
  | _ + 1, .tac :: ts => some ([], ts)
  | f + 1, ts =>
    match parseJ f ts with
    | some (e, ts') =>
      match parseL f ts' with
      | some (es, ts'') => some (e :: es, ts'')
      | none => none
    | none => none

/-- Fuel-indexed parser for the fields of an object, up to `toc`. -/
def parseF : Nat → List JTok → Option (List (String × Json) × List JTok)
  | 0, _ => none
  | _ + 1, .toc :: ts => some ([], ts)
  | f + 1, .tstr k :: ts =>
    match parseJ f ts with
    | some (v, ts') =>
      match parseF f ts' with
      | some (fs, ts'') => some ((k, v) :: fs, ts'')
      | none => none
    | none => none
  | _ + 1, _ => none

end

/-- Modelled from the spec: `JSON.parse` (external platform builtin;
"deserialize and return the cached payload").  Returns `none` where
`JSON.parse` would throw. -/
def deserializeToks (ts : List JTok) : Option Json :=
  match parseJ (ts.length + 1) ts with
  | some (j, []) => some j
  | _ => none

/-- A regex atom: a literal character or `.` (any character). -/
inductive Atom where
  | lit (c : Char)
  | anyChar
  deriving DecidableEq, Repr

/-- A quantifier on an atom: exactly one, `*`, `+` or `?`. -/
inductive Quant where
  | one
  | star
  | plus
  | opt
  deriving DecidableEq, Repr

/-- A compiled anchored regex: a sequence of quantified atoms
(the model of `new RegExp('^' + body + '$')`). -/
abbrev Regex := List (Atom × Quant)

/-- Does an atom match one character? -/
def amatch : Atom → Char → Bool
  | .lit c, d => c == d
  | .anyChar, _ => true

/-- Fuel-indexed anchored matcher for the compiled regex. -/
def rmFuel : Nat → Regex → List Char → Bool
  | 0, _, _ => false
  | _ + 1, [], cs => cs.isEmpty
  | _ + 1, (_, .one) :: _, [] => false
  | f + 1, (a, .one) :: rs, c :: cs => amatch a c && rmFuel f rs cs
  | f + 1, (a, .opt) :: rs, cs =>
    rmFuel f rs cs ||
      (match cs with
       | c :: cs' => amatch a c && rmFuel f rs cs'
       | [] => false)
  | f + 1, (a, .star) :: rs, cs =>
    rmFuel f rs cs ||
      (match cs with
       | c :: cs' => amatch a c && rmFuel f ((a, .star) :: rs) cs'
       | [] => false)
  | _ + 1, (_, .plus) :: _, [] => false
  | f + 1, (a, .plus) :: rs, c :: cs => amatch a c && rmFuel f ((a, .star) :: rs) cs

/-- Anchored regex match (`regex.test(key)` with the `^...$` anchors). -/
def rmatch (rs : Regex) (cs : List Char) : Bool :=
  rmFuel (rs.length + cs.length + 1) rs cs

/-- The regex made of the literal atoms of `p`, each matched exactly once. -/
def litsOf (p : List Char) : Regex := p.map (fun c => (Atom.lit c, Quant.one))

/-- Regex metacharacters that end the exactly-modelled fragment of one
alternation branch body: escapes, groups, classes, quantifier braces and
mid-branch anchors (`|` never reaches the branch compiler, the source is
split on it first).  Because `req.params.id` is URL-controlled, patterns
can contain any of these; the model conservatively collapses such a
branch to a construction failure — JS throws on the ill-formed ones
(`**`, an unbalanced `(` or `[`) but compiles several of the others — so
no theorem below ranges over patterns containing them. -/
def metaChars : List Char := ['\\', '(', ')', '[', ']', '{', '}', '^', '$', '|']

/-- Modelled from the spec: the JS `RegExp` constructor (external platform
builtin) on the body of one alternation branch, anchors already stripped.
Literal characters become literal atoms, `.` the any-character atom, and
`*`/`+`/`?` quantify the previous atom (a `?` after an already-quantified
atom is the lazy variant, which `test` cannot distinguish from the greedy
one); a quantifier with nothing to repeat is a construction failure, as
in JS; a residual metacharacter collapses the construction (see
`metaChars`). -/
def compileGo : List Char → Regex → Option Regex
  | [], acc => some acc.reverse
  | c :: rest, acc =>
    if c = '.' then compileGo rest ((Atom.anyChar, Quant.one) :: acc)
    else if c = '*' then
      match acc with
      | (a, Quant.one) :: acc' => compileGo rest ((a, Quant.star) :: acc')
      | _ => none
    else if c = '+' then
      match acc with
      | (a, Quant.one) :: acc' => compileGo rest ((a, Quant.plus) :: acc')
      | _ => none
    else if c = '?' then
      match acc with
      | (a, Quant.one) :: acc' => compileGo rest ((a, Quant.opt) :: acc')
      | (a, q) :: acc' => compileGo rest ((a, q) :: acc')
      | [] => none
    else if c ∈ metaChars then none
    else compileGo rest ((Atom.lit c, Quant.one) :: acc)

/-- Compile a full (already `*`-substituted) regex body. -/
def compileRegex (p : List Char) : Option Regex := compileGo p []

/-- The `pattern.replace('*', '.*')` step: JS `String.replace` with a string
pattern replaces only the first occurrence. -/
def replaceFirstStar : List Char → List Char
  | [] => []
  | c :: rest => if c = '*' then '.' :: '*' :: rest else c :: replaceFirstStar rest

/-- Split the full regex source on the alternation metacharacter `|`
(always top-level in the modelled fragment, which has no groups or
classes). -/
def splitBar : List Char → List (List Char)
  | [] => [[]]
  | c :: rest =>
    if c = '|' then [] :: splitBar rest
    else
      match splitBar rest with
      | b :: bs => (c :: b) :: bs
      | [] => [[c]]

/-- One alternation branch of a compiled pattern: an optional leading
`^` anchor, a sequence of quantified atoms, an optional trailing `$`
anchor.  JS alternation has lowest precedence, so the `^`/`$` the
fallback `keys` wraps around the whole pattern bind only to the first
and last branch. -/
structure RBranch where
  anchStart : Bool
  atoms : Regex
  anchEnd : Bool
  deriving DecidableEq, Repr

/-- Compile one alternation branch: strip a leading `^` and a trailing
`$` anchor, then compile the atom sequence between them. -/
def compileBranch (cs : List Char) : Option RBranch :=
  let p1 : Bool × List Char :=
    match cs with
    | '^' :: rest => (true, rest)
    | _ => (false, cs)
  let p2 : Bool × List Char :=
    match p1.2.reverse with
    | '$' :: rrest => (true, rrest.reverse)
    | _ => (false, p1.2)
  match compileRegex p2.2 with
  | some r => some ⟨p1.1, r, p2.1⟩
  | none => none

/-- Compile every alternation branch; one failing branch fails the
whole construction. -/
def compileBranches : List (List Char) → Option (List RBranch)
  | [] => some []
  | b :: bs =>
    match compileBranch b, compileBranches bs with
    | some rb, some rbs => some (rb :: rbs)
    | _, _ => none

/-- The compiled form of `new RegExp('^' + pattern.replace('*','.*') + '$')`
built by the fallback client's `keys`; `none` models a constructor throw. -/
def compilePattern (pat : String) : Option (List RBranch) :=
  compileBranches (splitBar ('^' :: (replaceFirstStar pat.toList ++ ['$'])))

/-- Does one branch match the key?  `RegExp.prototype.test` searches for
a match anywhere in the key, so a branch without a `^` (resp. `$`)
anchor may skip an arbitrary prefix (resp. suffix) of the key, modelled
as an unbounded any-character block on that side. -/
def bmatch (b : RBranch) (key : List Char) : Bool :=
  rmatch ((if b.anchStart then [] else [(Atom.anyChar, Quant.star)]) ++
    (b.atoms ++ (if b.anchEnd then [] else [(Atom.anyChar, Quant.star)]))) key

/-- Does `key` match the compiled pattern: does some alternation branch
match it? -/
def jsMatch (bs : List RBranch) (key : List Char) : Bool :=
  bs.any (fun b => bmatch b key)

/-- Does `key` match `pattern` under the fallback client's `keys` test?
`false` when the regex cannot be constructed. -/
def patMatches (pat key : String) : Bool :=
  match compilePattern pat with
  | some bs => jsMatch bs key.toList
  | none => false

/-- A pattern character with no regex meaning: neither `.`, a quantifier,
nor a metacharacter. -/
def plainChar (c : Char) : Prop :=
  c ≠ '.' ∧ c ≠ '*' ∧ c ≠ '+' ∧ c ≠ '?' ∧ c ∉ metaChars

instance (c : Char) : Decidable (plainChar c) := by
  unfold plainChar; infer_instance

/-- Result of one cache-client operation; `err` models a thrown /
rejected operation (connectivity error, invalid regex, ...). -/
inductive OpResult (α : Type) where
  | ok (value : α)
  | err
  deriving DecidableEq, Repr

/-- The cache-client interface shared by the real backend adapter and
the in-memory fallback: each operation returns a result and the next
client state. -/
structure ClientOps (σ : Type) where
  get : String → σ → OpResult (Option JStr) × σ
  set : String → JStr → Option Nat → σ → OpResult Unit × σ
  del : String → σ → OpResult Nat × σ
  keys : String → σ → OpResult (List String) × σ

/-- State of the in-memory fallback client: the `mockStorage` map (as an
insertion-ordered association list), the pending `setTimeout` removals
as (absolute fire time, key) pairs, and the current time in seconds. -/
structure MockState where
  store : List (String × JStr)
  timers : List (Nat × String)
  now : Nat
  deriving DecidableEq, Repr

/-- The `Map.prototype.get` operation. -/
def storeGet : List (String × JStr) → String → Option JStr
  | [], _ => none
  | (k', v') :: rest, k => if k' = k then some v' else storeGet rest k

/-- The `Map.prototype.set` operation: overwrite in place, insert new keys at the end. -/
def storeSet : List (String × JStr) → String → JStr → List (String × JStr)
  | [], k, v => [(k, v)]
  | (k', v') :: rest, k, v =>
    if k' = k then (k', v) :: rest else (k', v') :: storeSet rest k v

/-- The `Map.prototype.delete` operation (the entry removal part). -/
def storeDel (st : List (String × JStr)) (k : String) : List (String × JStr) :=
  st.filter (fun p => decide (p.1 ≠ k))

/-- Fallback `get`: `async (key) => mockStorage.get(key) || null` — an
empty (falsy) stored string is collapsed to `null`. -/
def mockGet (key : String) (s : MockState) : OpResult (Option JStr) × MockState :=
  (.ok (match storeGet s.store key with
        | some v => if v.isEmpty then none else some v
        | none => none), s)

/-- Fallback `set`: store the value and, if `EX` is given, schedule a
deferred removal of the key `EX` seconds from now.  Overwriting never
cancels previously scheduled removals. -/
def mockSet (key : String) (v : JStr) (ex : Option Nat) (s : MockState) :
    OpResult Unit × MockState :=
  (.ok (),
    { s with
      store := storeSet s.store key v
      timers :=
        match ex with
        | some e => s.timers ++ [(s.now + e, key)]
        | none => s.timers })

/-- Fallback `del`: `mockStorage.delete(key) ? 1 : 0`. -/
def mockDel (key : String) (s : MockState) : OpResult Nat × MockState :=
  (.ok (if (storeGet s.store key).isSome then 1 else 0),
    { s with store := storeDel s.store key })

/-- Fallback `keys`: filter the current key set through the anchored
regex built from the pattern; a regex construction failure rejects. -/
def mockKeys (pattern : String) (s : MockState) : OpResult (List String) × MockState :=
  match compilePattern pattern with
  | none => (.err, s)
  | some bs => (.ok ((s.store.map Prod.fst).filter (fun k => jsMatch bs k.toList)), s)

/-- The in-memory fallback client returned by `createRedisClient` when
the backend connection fails. -/
def mockClient : ClientOps MockState :=
  { get := mockGet, set := mockSet, del := mockDel, keys := mockKeys }

/-- Let `dt` seconds pass: every scheduled removal that comes due fires
(`setTimeout(() => mockStorage.delete(key), ...)`), unconditionally
deleting its key. -/
def elapse (dt : Nat) (s : MockState) : MockState :=
  let t := s.now + dt
  { store := s.store.filter
      (fun p => !(s.timers.any (fun tm => decide (tm.1 ≤ t) && tm.2 == p.1)))
    timers := s.timers.filter (fun tm => decide (t < tm.1))
    now := t }

/-- Outcome of one GET request through the cache middleware: the JSON
body delivered to the caller, whether the downstream handler ran, and
the resulting cache-client state. -/
structure GetOutcome (σ : Type) where
  body : Json
  downstreamInvoked : Bool
  state : σ

/-- The cache key computed by the middleware:
`` `students:${req.originalUrl}` ``. -/
def cacheKeyOf (originalUrl : String) : String := "students:" ++ originalUrl

/-- The cache middleware `cacheData(expireTime)` of `src/config/redis.js`,
applied to a request.  `handlerData` is the payload the downstream route
handler would pass to `res.json`.  Branches:
* non-GET requests pass through untouched;
* a failed lookup is caught: log, `next()` (no write-back wrapping);
* a truthy cached string is parsed and served without the downstream
  handler (a parse throw is caught, falling through to `next()` without
  write-back);
* otherwise `res.json` is wrapped so the handler's payload is written
  back with the route TTL (the `set`'s own failure is swallowed by
  `.catch`) and delivered unchanged. -/
def cacheData {σ : Type} (client : ClientOps σ) (expireTime : Nat)
    (method originalUrl : String) (handlerData : Json) (s : σ) : GetOutcome σ :=
  if method ≠ "GET" then ⟨handlerData, true, s⟩
  else
    let cacheKey := cacheKeyOf originalUrl
    match client.get cacheKey s with
    | (.err, s') => ⟨handlerData, true, s'⟩
    | (.ok cached, s') =>
      match cached with
      | some cs =>
        if cs.isEmpty then
          let r := client.set cacheKey (jsonToks handlerData) (some expireTime) s'
          ⟨handlerData, true, r.2⟩
        else
          match deserializeToks cs with
          | some j => ⟨j, false, s'⟩
          | none => ⟨handlerData, true, s'⟩
      | none =>
        let r := client.set cacheKey (jsonToks handlerData) (some expireTime) s'
        ⟨handlerData, true, r.2⟩

/-- Delete every enumerated key (the `Promise.all(keys.map(key =>
redisClient.del(key)))`; all deletions are started regardless of
individual failures, whose rejections are caught by `clearCache`). -/
def delAll {σ : Type} (client : ClientOps σ) : List String → σ → σ
  | [], s => s
  | k :: ks, s => delAll client ks (client.del k s).2

/-- The `clearCache(pattern)` helper: enumerate matching keys and delete
them; any error is caught and logged, never propagated. -/
def clearCache {σ : Type} (client : ClientOps σ) (pattern : String) (s : σ) : σ :=
  match client.keys pattern s with
  | (.err, s') => s'
  | (.ok ks, s') => delAll client ks s'

/-- The collection-level invalidation pattern used by all three mutation
routes: `'students:/api/students*'`. -/
def collectionPattern : String := "students:/api/students*"

/-- The single-resource invalidation pattern used by the update and
delete routes: `` `students:/api/students/${req.params.id}` ``. -/
def idPattern (id : String) : String := "students:/api/students/" ++ id

/-- A successful mutation request, as far as the cache layer sees it. -/
inductive Mutation where
  | mcreate
  | mupdate (id : String)
  | mdelete (id : String)

/-- The invalidation patterns each route passes to `clearCache`. -/
def patternsOf : Mutation → List String
  | .mcreate => [collectionPattern]
  | .mupdate id => [idPattern id, collectionPattern]
  | .mdelete id => [idPattern id, collectionPattern]

/-- The success path of a mutation route: the mutation's `clearCache`
calls are awaited, then the handler responds with `freshBody` (the
saved/updated document or the deletion message). -/
def runMutation {σ : Type} (client : ClientOps σ) (m : Mutation) (freshBody : Json)
    (s : σ) : Json × σ :=
  (freshBody, (patternsOf m).foldl (fun st p => clearCache client p st) s)

/-- Modelled from the spec: a backend client whose every operation fails
with a connectivity error ("failures surface as connectivity errors to
the caller"). -/
def failClient : ClientOps Unit :=
  { get := fun _ s => (.err, s)
    set := fun _ _ _ s => (.err, s)
    del := fun _ s => (.err, s)
    keys := fun _ s => (.err, s) }

/-- Modelled from the spec: a backend client whose lookup returns the
empty string for every key (a foreign writer can store one in the real
backend) and whose write-backs fail. -/
def emptyHitFailSetClient : ClientOps Unit :=
  { get := fun _ s => (.ok (some []), s)
    set := fun _ _ _ s => (.err, s)
    del := fun _ s => (.ok 0, s)
    keys := fun _ s => (.ok [], s) }

/-- Modelled from the spec: a backend client whose lookups miss and
whose write-backs fail. -/
def missFailSetClient : ClientOps Unit :=
  { get := fun _ s => (.ok none, s)
    set := fun _ _ _ s => (.err, s)
    del := fun _ s => (.ok 0, s)
    keys := fun _ s => (.ok [], s) }

/-- The fallback store of the spec's `listKeys` scenario: exactly the two
student keys and one unrelated key. -/
def seededState : MockState :=
  { store := [("students:/api/students", [JTok.tnull]),
              ("students:/api/students/123", [JTok.tnull]),
              ("other:/foo", [JTok.tnull])]
    timers := []
    now := 0 }

/-- Split a pattern at its first wildcard character. -/
def splitAtFirstStar : List Char → List Char × List Char
  | [] => ([], [])
  | c :: rest =>
    if c = '*' then ([], rest)
    else (c :: (splitAtFirstStar rest).1, (splitAtFirstStar rest).2)

/-- The matching relation claim C9 describes, as a spec-side definition
for comparison with the code's `keys`: the first wildcard matches any
characters and every other pattern character — including a later
wildcard character — is matched literally, anchored at both ends. -/
def literalOneWildcardMatch (pat key : String) : Bool :=
  (splitAtFirstStar pat.toList).1.isPrefixOf key.toList &&
    (splitAtFirstStar pat.toList).2.isSuffixOf key.toList &&
    decide ((splitAtFirstStar pat.toList).1.length +
      (splitAtFirstStar pat.toList).2.length ≤ key.toList.length)

/-- Fallback store for the C9 counterexample: one key, no asterisk in it. -/
def c9State : MockState :=
  { store := [("abbc", [JTok.tnull])], timers := [], now := 0 }

theorem jsonToks_length_pos (j : Json) : 0 < (jsonToks j).length := by
  cases j <;> simp [jsonToks]

theorem jsonToks_ne_nil (j : Json) : jsonToks j ≠ [] := by
  cases j <;> simp [jsonToks]

/-- The first token of a serialized value is never a closing token. -/
theorem jsonToks_head_shape (j : Json) :
    ∃ t ts, jsonToks j = t :: ts ∧ t ≠ JTok.tac ∧ t ≠ JTok.toc := by
  cases j <;> simp [jsonToks]

/-- Soundness of the parser on serializer output, for every sufficient fuel. -/
theorem parse_toks_sound (f : Nat) :
    (∀ (j : Json) (rest : List JTok), (jsonToks j).length < f →
      parseJ f (jsonToks j ++ rest) = some (j, rest)) ∧
    (∀ (es : List Json) (rest : List JTok), (listToks es).length + 2 ≤ f →
      parseL f (listToks es ++ .tac :: rest) = some (es, rest)) ∧
    (∀ (fs : List (String × Json)) (rest : List JTok),
      (fieldsToks fs).length + 2 ≤ f →
      parseF f (fieldsToks fs ++ .toc :: rest) = some (fs, rest)) := by
  induction f with
  | zero =>
    refine ⟨fun j rest h => absurd h (by omega), fun es rest h => absurd h (by omega),
      fun fs rest h => absurd h (by omega)⟩
  | succ f ih =>
    obtain ⟨ih1, ih2, ih3⟩ := ih
    refine ⟨?_, ?_, ?_⟩
    · intro j rest h
      cases j with
      | jnull => simp [jsonToks, parseJ]
      | jbool b => simp [jsonToks, parseJ]
      | jnum n => simp [jsonToks, parseJ]
      | jstr s => simp [jsonToks, parseJ]
      | jarr es =>
        have hlen : (listToks es).length + 2 ≤ f := by
          simp [jsonToks] at h; omega
        have := ih2 es rest hlen
        simp [jsonToks, parseJ, List.append_assoc, this]
      | jobj fs =>
        have hlen : (fieldsToks fs).length + 2 ≤ f := by
          simp [jsonToks] at h; omega
        have := ih3 fs rest hlen
        simp [jsonToks, parseJ, List.append_assoc, this]
    · intro es rest h
      cases es with
      | nil => simp [listToks, parseL]
      | cons e es' =>
        obtain ⟨t, ts, hts, htac, _⟩ := jsonToks_head_shape e
        have hlen : (jsonToks e).length + (listToks es').length + 2 ≤ f + 1 := by
          simp [listToks] at h; omega
        have hepos := jsonToks_length_pos e
        have h1 : parseJ f (jsonToks e ++ (listToks es' ++ .tac :: rest)) =
            some (e, listToks es' ++ .tac :: rest) := ih1 e _ (by omega)
        have h2 : parseL f (listToks es' ++ .tac :: rest) = some (es', rest) :=
          ih2 es' rest (by omega)
        have hshape : listToks (e :: es') ++ .tac :: rest =
            t :: (ts ++ (listToks es' ++ .tac :: rest)) := by
          simp [listToks, hts]
        rw [hshape]
        have hJ : parseJ f (t :: (ts ++ (listToks es' ++ .tac :: rest))) =
            some (e, listToks es' ++ .tac :: rest) := by
          rw [← List.cons_append, ← hts]; exact h1
        cases t with
        | tac => exact absurd rfl htac
        | tnull => simp [parseL, hJ, h2]
        | tbool b => simp [parseL, hJ, h2]
        | tnum n => simp [parseL, hJ, h2]
        | tstr s => simp [parseL, hJ, h2]
        | tao => simp [parseL, hJ, h2]
        | too => simp [parseL, hJ, h2]
        | toc => simp [parseL, hJ, h2]
    · intro fs rest h
      cases fs with
      | nil => simp [fieldsToks, parseF]
      | cons kv fs' =>
        obtain ⟨k, v⟩ := kv
        have hlen : (jsonToks v).length + (fieldsToks fs').length + 3 ≤ f + 1 := by
          simp [fieldsToks] at h; omega
        have hvpos := jsonToks_length_pos v
        have h1 : parseJ f (jsonToks v ++ (fieldsToks fs' ++ .toc :: rest)) =
            some (v, fieldsToks fs' ++ .toc :: rest) := ih1 v _ (by omega)
        have h2 : parseF f (fieldsToks fs' ++ .toc :: rest) = some (fs', rest) :=
          ih3 fs' rest (by omega)
        have hshape : fieldsToks ((k, v) :: fs') ++ .toc :: rest =
            .tstr k :: (jsonToks v ++ (fieldsToks fs' ++ .toc :: rest)) := by
          simp [fieldsToks]
        rw [hshape]
        simp [parseF, h1, h2]

/-- Serialize-then-deserialize is the identity on payloads: the model of
the `JSON.parse (JSON.stringify x)` roundtrip. -/
theorem deserialize_jsonToks (j : Json) : deserializeToks (jsonToks j) = some j := by
  have h := (parse_toks_sound ((jsonToks j).length + 1)).1 j [] (by omega)
  rw [List.append_nil] at h
  simp [deserializeToks, h]

/-- The matcher result does not depend on the fuel once it is sufficient. -/
theorem rmFuel_congr :
    ∀ f g rs cs, rs.length + cs.length < f → rs.length + cs.length < g →
      rmFuel f rs cs = rmFuel g rs cs := by
  intro f
  induction f with
  | zero => intro g rs cs h; omega
  | succ f ih =>
    intro g rs cs hf hg
    cases g with
    | zero => omega
    | succ g =>
      cases rs with
      | nil => simp [rmFuel]
      | cons aq rs' =>
        obtain ⟨a, q⟩ := aq
        cases q with
        | one =>
          cases cs with
          | nil => simp [rmFuel]
          | cons c cs' =>
            simp only [rmFuel]
            rw [ih g rs' cs' (by simp at hf ⊢; omega) (by simp at hg ⊢; omega)]
        | opt =>
          cases cs with
          | nil =>
            simp only [rmFuel]
            rw [ih g rs' [] (by simp at hf ⊢; omega) (by simp at hg ⊢; omega)]
          | cons c cs' =>
            simp only [rmFuel]
            rw [ih g rs' (c :: cs') (by simp at hf ⊢; omega) (by simp at hg ⊢; omega),
              ih g rs' cs' (by simp at hf ⊢; omega) (by simp at hg ⊢; omega)]
        | star =>
          cases cs with
          | nil =>
            simp only [rmFuel]
            rw [ih g rs' [] (by simp at hf ⊢; omega) (by simp at hg ⊢; omega)]
          | cons c cs' =>
            simp only [rmFuel]
            rw [ih g rs' (c :: cs') (by simp at hf ⊢; omega) (by simp at hg ⊢; omega),
              ih g ((a, .star) :: rs') cs' (by simp at hf ⊢; omega) (by simp at hg ⊢; omega)]
        | plus =>
          cases cs with
          | nil => simp [rmFuel]
          | cons c cs' =>
            simp only [rmFuel]
            rw [ih g ((a, .star) :: rs') cs' (by simp at hf ⊢; omega) (by simp at hg ⊢; omega)]

theorem rmatch_eq_rmFuel (rs : Regex) (cs : List Char) (f : Nat)
    (h : rs.length + cs.length < f) : rmatch rs cs = rmFuel f rs cs := by
  exact rmFuel_congr _ f rs cs (by omega) h

theorem rmatch_nil (cs : List Char) : rmatch [] cs = cs.isEmpty := by
  simp [rmatch, rmFuel]

theorem rmatch_one_nil (a : Atom) (rs : Regex) : rmatch ((a, .one) :: rs) [] = false := by
  simp [rmatch, rmFuel]

theorem rmatch_one_cons (a : Atom) (rs : Regex) (c : Char) (cs : List Char) :
    rmatch ((a, .one) :: rs) (c :: cs) = (amatch a c && rmatch rs cs) := by
  have h : rmatch ((a, .one) :: rs) (c :: cs) =
      (amatch a c && rmFuel (((a, Quant.one) :: rs).length + (c :: cs).length) rs cs) := rfl
  rw [h, ← rmatch_eq_rmFuel rs cs _ (by simp only [List.length_cons]; omega)]

theorem rmatch_opt_nil (a : Atom) (rs : Regex) : rmatch ((a, .opt) :: rs) [] = rmatch rs [] := by
  have h : rmatch ((a, .opt) :: rs) [] =
      (rmFuel (((a, Quant.opt) :: rs).length + ([] : List Char).length) rs [] || false) := rfl
  rw [h, ← rmatch_eq_rmFuel rs [] _
    (by simp only [List.length_cons, List.length_nil]; omega)]
  simp

theorem rmatch_opt_cons (a : Atom) (rs : Regex) (c : Char) (cs : List Char) :
    rmatch ((a, .opt) :: rs) (c :: cs) =
      (rmatch rs (c :: cs) || (amatch a c && rmatch rs cs)) := by
  have h : rmatch ((a, .opt) :: rs) (c :: cs) =
      (rmFuel (((a, Quant.opt) :: rs).length + (c :: cs).length) rs (c :: cs) ||
        (amatch a c && rmFuel (((a, Quant.opt) :: rs).length + (c :: cs).length) rs cs)) := rfl
  rw [h, ← rmatch_eq_rmFuel rs (c :: cs) _ (by simp only [List.length_cons]; omega),
    ← rmatch_eq_rmFuel rs cs _ (by simp only [List.length_cons]; omega)]

theorem rmatch_star_nil (a : Atom) (rs : Regex) : rmatch ((a, .star) :: rs) [] = rmatch rs [] := by
  have h : rmatch ((a, .star) :: rs) [] =
      (rmFuel (((a, Quant.star) :: rs).length + ([] : List Char).length) rs [] || false) := rfl
  rw [h, ← rmatch_eq_rmFuel rs [] _
    (by simp only [List.length_cons, List.length_nil]; omega)]
  simp

theorem rmatch_star_cons (a : Atom) (rs : Regex) (c : Char) (cs : List Char) :
    rmatch ((a, .star) :: rs) (c :: cs) =
      (rmatch rs (c :: cs) || (amatch a c && rmatch ((a, .star) :: rs) cs)) := by
  have h : rmatch ((a, .star) :: rs) (c :: cs) =
      (rmFuel (((a, Quant.star) :: rs).length + (c :: cs).length) rs (c :: cs) ||
        (amatch a c &&
          rmFuel (((a, Quant.star) :: rs).length + (c :: cs).length)
            ((a, Quant.star) :: rs) cs)) := rfl
  rw [h, ← rmatch_eq_rmFuel rs (c :: cs) _ (by simp only [List.length_cons]; omega),
    ← rmatch_eq_rmFuel ((a, .star) :: rs) cs _ (by simp only [List.length_cons]; omega)]

theorem rmatch_plus_nil (a : Atom) (rs : Regex) : rmatch ((a, .plus) :: rs) [] = false := by
  simp [rmatch, rmFuel]

theorem rmatch_plus_cons (a : Atom) (rs : Regex) (c : Char) (cs : List Char) :
    rmatch ((a, .plus) :: rs) (c :: cs) = (amatch a c && rmatch ((a, .star) :: rs) cs) := by
  have h : rmatch ((a, .plus) :: rs) (c :: cs) =
      (amatch a c &&
        rmFuel (((a, Quant.plus) :: rs).length + (c :: cs).length)
          ((a, Quant.star) :: rs) cs) := rfl
  rw [h, ← rmatch_eq_rmFuel ((a, .star) :: rs) cs _ (by simp only [List.length_cons]; omega)]

theorem rmatch_nil_iff (cs : List Char) : rmatch [] cs = true ↔ cs = [] := by
  rw [rmatch_nil]
  cases cs <;> simp

/-- A block of literal atoms consumes exactly that literal prefix. -/
theorem rmatch_lits_append (p : List Char) (rs : Regex) :
    ∀ cs, rmatch (litsOf p ++ rs) cs = true ↔
      ∃ cs', cs = p ++ cs' ∧ rmatch rs cs' = true := by
  induction p with
  | nil => intro cs; simp [litsOf]
  | cons c p' ih =>
    intro cs
    cases cs with
    | nil =>
      simp only [litsOf, List.map_cons, List.cons_append, rmatch_one_nil]
      constructor
      · intro h; exact absurd h (by simp)
      · rintro ⟨cs', h, _⟩; exact absurd h (by simp)
    | cons c0 cs0 =>
      show rmatch ((Atom.lit c, Quant.one) :: (litsOf p' ++ rs)) (c0 :: cs0) = true ↔ _
      rw [rmatch_one_cons]
      constructor
      · intro h
        simp only [Bool.and_eq_true] at h
        obtain ⟨hc, hrest⟩ := h
        have : c = c0 := by simpa [amatch] using hc
        obtain ⟨cs', hcs, hr⟩ := (ih cs0).mp hrest
        exact ⟨cs', by simp [this, hcs], hr⟩
      · rintro ⟨cs', hcs, hr⟩
        simp only [List.cons_append, List.cons.injEq] at hcs
        obtain ⟨rfl, hcs0⟩ := hcs
        have : rmatch (litsOf p' ++ rs) cs0 = true := (ih cs0).mpr ⟨cs', hcs0, hr⟩
        simp [amatch, this]

/-- Characterization of a starred atom: it consumes a block of matching
characters, then the rest of the regex matches the remainder. -/
theorem rmatch_star_iff (a : Atom) (rs : Regex) :
    ∀ cs, rmatch ((a, .star) :: rs) cs = true ↔
      ∃ l r, cs = l ++ r ∧ (∀ c ∈ l, amatch a c = true) ∧ rmatch rs r = true := by
  intro cs
  induction cs with
  | nil =>
    rw [rmatch_star_nil]
    constructor
    · intro h; exact ⟨[], [], by simp, by simp, h⟩
    · rintro ⟨l, r, hlr, _, hr⟩
      obtain ⟨rfl, rfl⟩ : l = [] ∧ r = [] := by
        constructor <;> [skip; skip] <;>
          (cases l with
           | nil => simp_all
           | cons x xs => simp at hlr)
      exact hr
  | cons c cs' ih =>
    rw [rmatch_star_cons]
    constructor
    · intro h
      rcases Bool.or_eq_true_iff.mp h with h1 | h2
      · exact ⟨[], c :: cs', by simp, by simp, h1⟩
      · obtain ⟨hc, hrest⟩ := (by simpa using h2 : _ ∧ _)
        obtain ⟨l, r, hlr, hl, hr⟩ := ih.mp hrest
        exact ⟨c :: l, r, by simp [hlr], by simpa [hc] using hl, hr⟩
    · rintro ⟨l, r, hlr, hl, hr⟩
      cases l with
      | nil =>
        simp only [List.nil_append] at hlr
        subst hlr
        simp [hr]
      | cons x l' =>
        simp only [List.cons_append, List.cons.injEq] at hlr
        obtain ⟨rfl, hcs⟩ := hlr
        have hx : amatch a c = true := hl c (by simp)
        have : rmatch ((a, .star) :: rs) cs' = true :=
          ih.mpr ⟨l', r, hcs, fun d hd => hl d (by simp [hd]), hr⟩
        simp [hx, this]

/-- An `.*` block at the end of a regex matches any remainder. -/
theorem rmatch_anystar (cs : List Char) :
    rmatch [(Atom.anyChar, Quant.star)] cs = true := by
  rw [rmatch_star_iff]
  exact ⟨cs, [], by simp, by simp [amatch], by simp [rmatch_nil]⟩

theorem compileGo_plain_append (p : List Char) (hp : ∀ c ∈ p, plainChar c) :
    ∀ (rest : List Char) (acc : Regex),
      compileGo (p ++ rest) acc = compileGo rest ((litsOf p).reverse ++ acc) := by
  induction p with
  | nil => intro rest acc; simp [litsOf]
  | cons c p' ih =>
    intro rest acc
    obtain ⟨h1, h2, h3, h4, h5⟩ := hp c (by simp)
    have hp' : ∀ d ∈ p', plainChar d := fun d hd => hp d (by simp [hd])
    simp only [List.cons_append, compileGo, if_neg h1, if_neg h2, if_neg h3, if_neg h4]
    rw [if_neg h5]
    simp only [List.append_eq]
    rw [ih hp' rest ((Atom.lit c, Quant.one) :: acc)]
    simp [litsOf]

/-- Every constructed regex extends the reversal of its accumulator:
later pattern characters can replace the most recent atom but never
touch the atoms below it. -/
theorem compileGo_acc_frozen :
    ∀ (rest : List Char) (x : Atom × Quant) (acc reg : Regex),
      compileGo rest (x :: acc) = some reg →
      ∃ x' tail, reg = acc.reverse ++ x' :: tail := by
  intro rest
  induction rest with
  | nil =>
    intro x acc reg h
    simp only [compileGo, Option.some.injEq] at h
    exact ⟨x, [], by simp [← h]⟩
  | cons c rest' ih =>
    intro x acc reg h
    simp only [compileGo] at h
    by_cases h1 : c = '.'
    · rw [if_pos h1] at h
      obtain ⟨x', tail, htail⟩ := ih (Atom.anyChar, Quant.one) (x :: acc) reg h
      exact ⟨x, x' :: tail, by simp [htail]⟩
    rw [if_neg h1] at h
    by_cases h2 : c = '*'
    · rw [if_pos h2] at h
      obtain ⟨a, q⟩ := x
      cases q with
      | one =>
        obtain ⟨x', tail, htail⟩ := ih (a, Quant.star) acc reg h
        exact ⟨x', tail, htail⟩
      | star => simp at h
      | plus => simp at h
      | opt => simp at h
    rw [if_neg h2] at h
    by_cases h3 : c = '+'
    · rw [if_pos h3] at h
      obtain ⟨a, q⟩ := x
      cases q with
      | one =>
        obtain ⟨x', tail, htail⟩ := ih (a, Quant.plus) acc reg h
        exact ⟨x', tail, htail⟩
      | star => simp at h
      | plus => simp at h
      | opt => simp at h
    rw [if_neg h3] at h
    by_cases h4 : c = '?'
    · rw [if_pos h4] at h
      obtain ⟨a, q⟩ := x
      cases q with
      | one => exact ih (a, Quant.opt) acc reg h
      | star => exact ih (a, Quant.star) acc reg h
      | plus => exact ih (a, Quant.plus) acc reg h
      | opt => exact ih (a, Quant.opt) acc reg h
    rw [if_neg h4] at h
    by_cases h5 : c ∈ metaChars
    · rw [if_pos h5] at h; simp at h
    · rw [if_neg h5] at h
      obtain ⟨x', tail, htail⟩ := ih (Atom.lit c, Quant.one) (x :: acc) reg h
      exact ⟨x, x' :: tail, by simp [htail]⟩

/-- If the pattern starts with plain characters followed by a non-quantifier
character, the compiled regex starts with those characters as mandatory
literal atoms. -/
theorem compile_plain_head (p : List Char) (hp : ∀ c ∈ p, plainChar c)
    (c : Char) (hc : c ≠ '*' ∧ c ≠ '+' ∧ c ≠ '?' ∧ c ∉ metaChars)
    (r : List Char) (reg : Regex)
    (h : compileRegex (p ++ c :: r) = some reg) :
    ∃ x tail, reg = litsOf p ++ x :: tail := by
  obtain ⟨hc2, hc3, hc4, hc5⟩ := hc
  rw [compileRegex, compileGo_plain_append p hp (c :: r) []] at h
  simp only [List.append_nil] at h
  by_cases h1 : c = '.'
  · subst h1
    simp only [compileGo, if_pos rfl] at h
    obtain ⟨x, tail, htail⟩ :=
      compileGo_acc_frozen r (Atom.anyChar, Quant.one) (litsOf p).reverse reg h
    exact ⟨x, tail, by simpa using htail⟩
  · simp only [compileGo, if_neg h1, if_neg hc2, if_neg hc3, if_neg hc4] at h
    rw [if_neg hc5] at h
    obtain ⟨x, tail, htail⟩ :=
      compileGo_acc_frozen r (Atom.lit c, Quant.one) (litsOf p).reverse reg h
    exact ⟨x, tail, by simpa using htail⟩

/-- A regex beginning with mandatory literal atoms only matches keys
that start with those literals. -/
theorem rmatch_lits_head (p : List Char) (rest : Regex) (cs : List Char)
    (h : rmatch (litsOf p ++ rest) cs = true) : p.isPrefixOf cs = true := by
  obtain ⟨cs', hcs, _⟩ := (rmatch_lits_append p rest cs).mp h
  subst hcs
  simp [List.isPrefixOf_iff_prefix]

/-- A fully-plain pattern compiles on top of any accumulator. -/
theorem compileGo_plain_nil (p : List Char) (hp : ∀ c ∈ p, plainChar c) (acc : Regex) :
    compileGo p acc = some (acc.reverse ++ litsOf p) := by
  have h := compileGo_plain_append p hp [] acc
  rw [List.append_nil] at h
  rw [h]
  simp [compileGo]

/-- A fully-plain pattern with no wildcard compiles to its literal atoms. -/
theorem compileRegex_all_plain (p : List Char) (hp : ∀ c ∈ p, plainChar c) :
    compileRegex p = some (litsOf p) := by
  rw [compileRegex, compileGo_plain_nil p hp []]
  simp

/-- The function `replaceFirstStar` leaves a star-free pattern unchanged. -/
theorem replaceFirstStar_no_star (p : List Char) (hp : '*' ∉ p) :
    replaceFirstStar p = p := by
  induction p with
  | nil => rfl
  | cons c p' ih =>
    have hc : c ≠ '*' := fun h => hp (by simp [h])
    simp only [replaceFirstStar, if_neg hc]
    rw [ih (fun h => hp (by simp [h]))]

/-- The function `replaceFirstStar` passes over a star-free first segment. -/
theorem replaceFirstStar_append (p q : List Char) (hp : '*' ∉ p) :
    replaceFirstStar (p ++ q) = p ++ replaceFirstStar q := by
  induction p with
  | nil => rfl
  | cons c p' ih =>
    have hc : c ≠ '*' := fun h => hp (by simp [h])
    simp only [List.cons_append, replaceFirstStar, if_neg hc]
    simp only [List.append_eq]
    rw [ih (fun h => hp (by simp [h]))]

/-- The single-wildcard pattern `pre ++ "*" ++ suf` (pre/suf plain)
compiles to literals, an unbounded any-character block, then literals. -/
theorem compilePattern_single_star (pre suf : List Char)
    (hpre : ∀ c ∈ pre, plainChar c) (hsuf : ∀ c ∈ suf, plainChar c) :
    compileRegex (replaceFirstStar (pre ++ '*' :: suf)) =
      some (litsOf pre ++ (Atom.anyChar, Quant.star) :: litsOf suf) := by
  have hps : '*' ∉ pre := fun h => (hpre '*' h).2.1 rfl
  rw [replaceFirstStar_append pre ('*' :: suf) hps]
  have : replaceFirstStar ('*' :: suf) = '.' :: '*' :: suf := by
    simp [replaceFirstStar]
  rw [this, compileRegex, compileGo_plain_append pre hpre ('.' :: '*' :: suf) []]
  simp only [List.append_nil]
  have hdot : compileGo ('.' :: '*' :: suf) (litsOf pre).reverse =
      compileGo suf ((Atom.anyChar, Quant.star) :: (litsOf pre).reverse) := by
    simp [compileGo]
  rw [hdot, compileGo_plain_nil suf hsuf ((Atom.anyChar, Quant.star) :: (litsOf pre).reverse)]
  simp

theorem splitBar_no_bar (l : List Char) (h : '|' ∉ l) : splitBar l = [l] := by
  induction l with
  | nil => rfl
  | cons c rest ih =>
    have hc : c ≠ '|' := fun hcc => h (by simp [hcc])
    simp only [splitBar, if_neg hc]
    rw [ih (fun hm => h (by simp [hm]))]

/-- Compiling the wrapped form `^body$` of a bar-free pattern yields one
doubly-anchored branch. -/
theorem compileBranch_wrapped (body : List Char) (r : Regex)
    (h : compileRegex body = some r) :
    compileBranch ('^' :: (body ++ ['$'])) = some ⟨true, r, true⟩ := by
  unfold compileBranch
  simp [List.reverse_append, h]

theorem compilePattern_no_bar (pat : String) (r : Regex)
    (hb : '|' ∉ replaceFirstStar pat.toList)
    (h : compileRegex (replaceFirstStar pat.toList) = some r) :
    compilePattern pat = some [⟨true, r, true⟩] := by
  have hnb : '|' ∉ '^' :: (replaceFirstStar pat.toList ++ ['$']) := by
    intro hmem
    rcases List.mem_cons.mp hmem with h1 | h2
    · exact absurd h1 (by decide)
    · rcases List.mem_append.mp h2 with h3 | h4
      · exact hb h3
      · exact absurd h4 (by decide)
  unfold compilePattern
  rw [splitBar_no_bar _ hnb]
  simp only [compileBranches, compileBranch_wrapped (replaceFirstStar pat.toList) r h]

theorem bmatch_anchored (r : Regex) (key : List Char) :
    bmatch ⟨true, r, true⟩ key = rmatch r key := by
  simp [bmatch]

/-- On a bar-free pattern, `test` is the fully anchored single-branch
match. -/
theorem patMatches_of_single (pat : String) (r : Regex)
    (hb : '|' ∉ replaceFirstStar pat.toList)
    (h : compileRegex (replaceFirstStar pat.toList) = some r) (key : String) :
    patMatches pat key = rmatch r key.toList := by
  unfold patMatches
  rw [compilePattern_no_bar pat r hb h]
  simp [jsMatch, bmatch_anchored]

theorem storeGet_storeSet_self (st : List (String × JStr)) (k : String) (v : JStr) :
    storeGet (storeSet st k v) k = some v := by
  induction st with
  | nil => simp [storeSet, storeGet]
  | cons p rest ih =>
    obtain ⟨k', v'⟩ := p
    by_cases h : k' = k
    · simp [storeSet, storeGet, h]
    · simp [storeSet, storeGet, h, ih]

theorem storeGet_storeSet_other (st : List (String × JStr)) (k k' : String) (v : JStr)
    (h : k' ≠ k) : storeGet (storeSet st k v) k' = storeGet st k' := by
  induction st with
  | nil => simp [storeSet, storeGet, if_neg (Ne.symm h)]
  | cons p rest ih =>
    obtain ⟨k0, v0⟩ := p
    by_cases h0 : k0 = k
    · subst h0
      simp only [storeSet, if_pos rfl, storeGet]
      rw [if_neg (Ne.symm h), if_neg (Ne.symm h)]
    · simp only [storeSet, if_neg h0, storeGet]
      by_cases h1 : k0 = k'
      · simp [h1]
      · simp [h1, ih]

theorem storeGet_eq_none_of_not_mem (st : List (String × JStr)) (k : String)
    (h : k ∉ st.map Prod.fst) : storeGet st k = none := by
  induction st with
  | nil => simp [storeGet]
  | cons p rest ih =>
    obtain ⟨k', v'⟩ := p
    simp only [List.map_cons, List.mem_cons] at h
    push_neg at h
    simp [storeGet, if_neg (Ne.symm h.1), ih h.2]

theorem storeGet_filter_key (f : String → Bool) (st : List (String × JStr)) (k : String) :
    storeGet (st.filter (fun p => f p.1)) k = if f k then storeGet st k else none := by
  induction st with
  | nil => simp [storeGet]
  | cons p rest ih =>
    obtain ⟨k', v'⟩ := p
    by_cases hk : k' = k
    · subst hk
      by_cases hf : f k'
      · simp [List.filter, hf, storeGet, ih]
      · simp only [List.filter_cons]
        rw [if_neg (by simp [hf])]
        simp [ih, hf]
    · by_cases hf : f k'
      · simp only [List.filter_cons]
        rw [if_pos (by simp [hf])]
        simp [storeGet, hk, ih]
      · simp only [List.filter_cons]
        rw [if_neg (by simp [hf])]
        simp [ih, storeGet, hk]

theorem storeGet_storeDel_self (st : List (String × JStr)) (k : String) :
    storeGet (storeDel st k) k = none := by
  unfold storeDel
  rw [storeGet_filter_key (fun x => decide (x ≠ k)) st k]
  simp

theorem storeGet_storeDel_other (st : List (String × JStr)) (k k' : String) (h : k' ≠ k) :
    storeGet (storeDel st k) k' = storeGet st k' := by
  unfold storeDel
  rw [storeGet_filter_key (fun x => decide (x ≠ k)) st k']
  simp [h]

theorem storeGet_foldl_storeDel (ks : List String) :
    ∀ (st : List (String × JStr)) (k : String),
      storeGet (ks.foldl storeDel st) k = if k ∈ ks then none else storeGet st k := by
  induction ks with
  | nil => intro st k; simp
  | cons k0 ks' ih =>
    intro st k
    by_cases h : k ∈ ks'
    · simp [List.foldl_cons, ih, h]
    · by_cases h0 : k = k0
      · subst h0
        simp [List.foldl_cons, ih, h, storeGet_storeDel_self]
      · simp [List.foldl_cons, ih, h, h0, storeGet_storeDel_other st k0 k h0]

theorem delAll_mock (ks : List String) :
    ∀ s : MockState, delAll mockClient ks s =
      { s with store := ks.foldl storeDel s.store } := by
  induction ks with
  | nil => intro s; simp [delAll]
  | cons k ks' ih =>
    intro s
    have hdel : (mockClient.del k s).2 = { s with store := storeDel s.store k } := rfl
    simp only [delAll, hdel, ih, List.foldl_cons]

/-- What one `clearCache(pattern)` call does to a fallback-store entry:
a key matching the pattern is absent afterwards, any other key is
untouched; a regex construction failure leaves the store unchanged
(and no key "matches" an unconstructible pattern). -/
theorem clearCache_mock_storeGet (p key : String) (s : MockState) :
    storeGet (clearCache mockClient p s).store key =
      if patMatches p key then none else storeGet s.store key := by
  unfold clearCache
  have hkeq : mockClient.keys = mockKeys := rfl
  rw [hkeq]
  cases hc : compilePattern p with
  | none => simp [mockKeys, hc, patMatches]
  | some bs =>
    simp only [mockKeys, hc]
    rw [delAll_mock]
    simp only [patMatches, hc]
    rw [storeGet_foldl_storeDel]
    by_cases hm : jsMatch bs key.toList = true
    · rw [if_pos hm]
      by_cases hmem : key ∈ s.store.map Prod.fst
      · have hmemf : key ∈ List.filter (fun k => jsMatch bs k.toList)
            (List.map Prod.fst s.store) := List.mem_filter.mpr ⟨hmem, hm⟩
        rw [if_pos hmemf]
      · have hnm : key ∉ List.filter (fun k => jsMatch bs k.toList)
            (List.map Prod.fst s.store) := fun hcon => hmem (List.mem_filter.mp hcon).1
        rw [if_neg hnm]
        exact storeGet_eq_none_of_not_mem _ _ hmem
    · have hnm : key ∉ List.filter (fun k => jsMatch bs k.toList)
          (List.map Prod.fst s.store) := fun hcon => hm (List.mem_filter.mp hcon).2
      rw [if_neg hnm, if_neg hm]

theorem clearCache_mock_timers (p : String) (s : MockState) :
    (clearCache mockClient p s).timers = s.timers ∧
      (clearCache mockClient p s).now = s.now := by
  unfold clearCache
  have hkeq : mockClient.keys = mockKeys := rfl
  rw [hkeq]
  cases hc : compilePattern p with
  | none => simp [mockKeys, hc]
  | some bs =>
    simp only [mockKeys, hc]
    rw [delAll_mock]
    exact ⟨rfl, rfl⟩

/-- A fallback-store entry after `dt` seconds pass: gone if some pending
removal for its key came due, untouched otherwise. -/
theorem storeGet_elapse (dt : Nat) (s : MockState) (k : String) :
    storeGet (elapse dt s).store k =
      if s.timers.any (fun tm => decide (tm.1 ≤ s.now + dt) && tm.2 == k)
      then none else storeGet s.store k := by
  unfold elapse
  rw [storeGet_filter_key
    (fun x => !(s.timers.any (fun tm => decide (tm.1 ≤ s.now + dt) && tm.2 == x))) s.store k]
  by_cases h : s.timers.any (fun tm => decide (tm.1 ≤ s.now + dt) && tm.2 == k)
  · simp [h]
  · simp [h]

theorem toList_append (a b : String) : (a ++ b).toList = a.toList ++ b.toList := rfl

theorem toList_injective (a b : String) (h : a.toList = b.toList) : a = b := by
  cases a
  cases b
  simp [String.toList] at h
  rw [h]

theorem rmatch_lits_iff (p : List Char) (cs : List Char) :
    rmatch (litsOf p) cs = true ↔ cs = p := by
  have h := rmatch_lits_append p [] cs
  rw [List.append_nil] at h
  rw [h]
  constructor
  · rintro ⟨cs', hcs, hr⟩
    rw [rmatch_nil_iff] at hr
    simp [hcs, hr]
  · rintro rfl
    exact ⟨[], by simp, by rw [rmatch_nil_iff]⟩

/-- A key matches the collection pattern exactly when it starts with the
literal collection key prefix (anchored single-wildcard semantics). -/
theorem patMatches_collection_iff (key : String) :
    patMatches collectionPattern key = true ↔
      "students:/api/students".toList <+: key.toList := by
  have hr : compileRegex (replaceFirstStar collectionPattern.toList) =
      some (litsOf "students:/api/students".toList ++ [(Atom.anyChar, Quant.star)]) := by
    have h : collectionPattern.toList =
        "students:/api/students".toList ++ '*' :: ([] : List Char) := rfl
    rw [h, compilePattern_single_star "students:/api/students".toList []
      (by decide) (by decide)]
    simp [litsOf]
  rw [patMatches_of_single collectionPattern _ (by decide) hr key]
  constructor
  · intro h
    obtain ⟨cs', hcs, _⟩ := (rmatch_lits_append _ _ _).mp h
    exact ⟨cs', hcs.symm⟩
  · rintro ⟨t, ht⟩
    exact (rmatch_lits_append _ _ _).mpr ⟨t, ht.symm, rmatch_anystar t⟩

/-- Any key matched by a single-resource pattern whose id consists of
regex-meaningless characters starts with the literal collection key
prefix: such a pattern compiles to one doubly-anchored all-literal
branch, so it matches exactly its own namespaced key. -/
theorem patMatches_idPattern_head (id key : String)
    (hplain : ∀ c ∈ id.toList, plainChar c)
    (h : patMatches (idPattern id) key = true) :
    "students:/api/students".toList <+: key.toList := by
  have hid_nostar : '*' ∉ id.toList := fun hc => (hplain '*' hc).2.1 rfl
  have h1 : (idPattern id).toList = "students:/api/students/".toList ++ id.toList := by
    rw [idPattern, toList_append]
  have h2 : replaceFirstStar (idPattern id).toList =
      "students:/api/students/".toList ++ id.toList := by
    rw [h1, replaceFirstStar_append "students:/api/students/".toList id.toList (by decide),
      replaceFirstStar_no_star id.toList hid_nostar]
  have hplainP : ∀ c ∈ "students:/api/students/".toList, plainChar c := by decide
  have hplain23 : ∀ c ∈ "students:/api/students/".toList ++ id.toList, plainChar c := by
    intro c hc
    rcases List.mem_append.mp hc with hcl | hcr
    · exact hplainP c hcl
    · exact hplain c hcr
  have hr : compileRegex (replaceFirstStar (idPattern id).toList) =
      some (litsOf ("students:/api/students/".toList ++ id.toList)) := by
    rw [h2]
    exact compileRegex_all_plain _ hplain23
  have hb : '|' ∉ replaceFirstStar (idPattern id).toList := by
    rw [h2]
    intro hc
    rcases List.mem_append.mp hc with hcl | hcr
    · exact absurd (by decide : '|' ∈ metaChars) (hplainP '|' hcl).2.2.2.2
    · exact absurd (by decide : '|' ∈ metaChars) (hplain '|' hcr).2.2.2.2
  rw [patMatches_of_single _ _ hb hr key] at h
  rw [rmatch_lits_iff] at h
  rw [h,
    show "students:/api/students/".toList =
      "students:/api/students".toList ++ ['/'] from rfl,
    List.append_assoc]
  exact List.prefix_append _ _

theorem ns_head_of_collection_head (cs : List Char)
    (h : "students:/api/students".toList <+: cs) : "students:".toList <+: cs := by
  exact List.IsPrefix.trans (by decide) h

/-- The cache key of the GET route for a resource id starts with the
collection key prefix (so the collection pattern always matches it). -/
theorem id_key_toList (id : String) :
    (cacheKeyOf ("/api/students/" ++ id)).toList =
      "students:/api/students".toList ++ '/' :: id.toList := by
  rw [cacheKeyOf, toList_append, toList_append]
  rw [show "students:".toList ++ ("/api/students/".toList ++ id.toList) =
    ("students:".toList ++ "/api/students/".toList) ++ id.toList from
    (List.append_assoc _ _ _).symm]
  rfl

theorem patMatches_collection_id_key (id : String) :
    patMatches collectionPattern (cacheKeyOf ("/api/students/" ++ id)) = true := by
  rw [patMatches_collection_iff, id_key_toList]
  exact ⟨'/' :: id.toList, rfl⟩

theorem isEmpty_jsonToks (j : Json) : (jsonToks j).isEmpty = false := by
  cases j <;> simp [jsonToks]

/-- The middleware on the fallback client, cache-miss path: the cache key
is absent, so the downstream payload is delivered, written back under the
route TTL (value stored, removal scheduled). -/
theorem cacheData_mock_miss (e : Nat) (url : String) (d : Json) (s : MockState)
    (h : storeGet s.store (cacheKeyOf url) = none) :
    cacheData mockClient e "GET" url d s =
      ⟨d, true,
        { s with
          store := storeSet s.store (cacheKeyOf url) (jsonToks d)
          timers := s.timers ++ [(s.now + e, cacheKeyOf url)] }⟩ := by
  have hget : mockClient.get (cacheKeyOf url) s = (.ok none, s) := by
    simp [mockClient, mockGet, h]
  rw [cacheData, if_neg (by simp)]
  simp only [hget]
  rfl

/-- The middleware on the fallback client, cache-hit path: a previously
written-back payload is served without the downstream handler and the
state is untouched. -/
theorem cacheData_mock_hit (e : Nat) (url : String) (d j : Json) (s : MockState)
    (h : storeGet s.store (cacheKeyOf url) = some (jsonToks j)) :
    cacheData mockClient e "GET" url d s = ⟨j, false, s⟩ := by
  have hget : mockClient.get (cacheKeyOf url) s = (.ok (some (jsonToks j)), s) := by
    simp [mockClient, mockGet, h, isEmpty_jsonToks]
  rw [cacheData, if_neg (by simp)]
  simp only [hget, isEmpty_jsonToks, deserialize_jsonToks]
  simp

theorem clearCache_mock_preserve_none (p key : String) (s : MockState)
    (h : storeGet s.store key = none) :
    storeGet (clearCache mockClient p s).store key = none := by
  rw [clearCache_mock_storeGet]
  by_cases hm : patMatches p key = true
  · rw [if_pos hm]
  · rw [if_neg hm]; exact h

theorem foldl_clearCache_preserve_none (ps : List String) :
    ∀ (s : MockState) (key : String), storeGet s.store key = none →
      storeGet ((ps.foldl (fun st p => clearCache mockClient p st) s)).store key = none := by
  induction ps with
  | nil => intro s key h; exact h
  | cons p ps' ih =>
    intro s key h
    exact ih _ key (clearCache_mock_preserve_none p key s h)

/-- After folding `clearCache` over a pattern list, every key matching
some pattern of the list is absent. -/
theorem foldl_clearCache_none (ps : List String) :
    ∀ (s : MockState) (key : String), (∃ p ∈ ps, patMatches p key = true) →
      storeGet ((ps.foldl (fun st p => clearCache mockClient p st) s)).store key = none := by
  induction ps with
  | nil => rintro s key ⟨p, hp, _⟩; simp at hp
  | cons p ps' ih =>
    rintro s key ⟨q, hq, hmq⟩
    rcases List.mem_cons.mp hq with rfl | hq'
    · rw [List.foldl_cons]
      exact foldl_clearCache_preserve_none ps' (clearCache mockClient q s) key
        (by rw [clearCache_mock_storeGet, if_pos hmq])
    · rw [List.foldl_cons]
      exact ih _ key ⟨q, hq', hmq⟩

/-- C1: Read-through behavior of the cache interceptor for every GET
request on the fallback client: if the computed cache key holds a cached
payload, it is deserialized and returned and the downstream handler is
not invoked; if the key is absent, the downstream handler is invoked,
its payload is serialized and stored with the route's TTL, and the
original payload is delivered.  Consequently the first call on an
uncached URL is a miss (downstream invoked), an identical
immediately-following call is a hit (downstream not invoked), and both
calls produce identical response bodies. -/
theorem C1_read_through (s : MockState) (url : String) (d d2 j : Json) (e : Nat) :
    (storeGet s.store (cacheKeyOf url) = some (jsonToks j) →
      cacheData mockClient e "GET" url d s = ⟨j, false, s⟩) ∧
    (storeGet s.store (cacheKeyOf url) = none →
      (cacheData mockClient e "GET" url d s).body = d ∧
      (cacheData mockClient e "GET" url d s).downstreamInvoked = true ∧
      storeGet (cacheData mockClient e "GET" url d s).state.store (cacheKeyOf url) =
        some (jsonToks d) ∧
      (cacheData mockClient e "GET" url d s).state.timers =
        s.timers ++ [(s.now + e, cacheKeyOf url)] ∧
      (cacheData mockClient e "GET" url d2
          (cacheData mockClient e "GET" url d s).state).body = d ∧
      (cacheData mockClient e "GET" url d2
          (cacheData mockClient e "GET" url d s).state).downstreamInvoked = false) := by
  constructor
  · intro h
    exact cacheData_mock_hit e url d j s h
  · intro h
    have hm := cacheData_mock_miss e url d s h
    rw [hm]
    refine ⟨rfl, rfl, storeGet_storeSet_self _ _ _, rfl, ?_, ?_⟩
    · rw [cacheData_mock_hit e url d2 d _ (storeGet_storeSet_self _ _ _)]
    · rw [cacheData_mock_hit e url d2 d _ (storeGet_storeSet_self _ _ _)]

/-- Witness for C1 at concrete inputs: a hit on a seeded store and a
miss-then-hit sequence on an empty store. -/
theorem C1_read_through_witness :
    cacheData mockClient 60 "GET" "/api/students" Json.jnull
        ⟨[("students:/api/students", jsonToks (Json.jbool true))], [], 0⟩ =
      ⟨Json.jbool true, false,
        ⟨[("students:/api/students", jsonToks (Json.jbool true))], [], 0⟩⟩ ∧
    ((cacheData mockClient 60 "GET" "/api/students" Json.jnull
        (⟨[], [], 0⟩ : MockState)).body = Json.jnull ∧
      (cacheData mockClient 60 "GET" "/api/students" Json.jnull
        (⟨[], [], 0⟩ : MockState)).downstreamInvoked = true ∧
      storeGet (cacheData mockClient 60 "GET" "/api/students" Json.jnull
        (⟨[], [], 0⟩ : MockState)).state.store (cacheKeyOf "/api/students") =
          some (jsonToks Json.jnull) ∧
      (cacheData mockClient 60 "GET" "/api/students" Json.jnull
        (⟨[], [], 0⟩ : MockState)).state.timers =
          ([] : List (Nat × String)) ++ [(0 + 60, cacheKeyOf "/api/students")] ∧
      (cacheData mockClient 60 "GET" "/api/students" (Json.jbool false)
          (cacheData mockClient 60 "GET" "/api/students" Json.jnull
            (⟨[], [], 0⟩ : MockState)).state).body = Json.jnull ∧
      (cacheData mockClient 60 "GET" "/api/students" (Json.jbool false)
          (cacheData mockClient 60 "GET" "/api/students" Json.jnull
            (⟨[], [], 0⟩ : MockState)).state).downstreamInvoked = false) :=
  ⟨(C1_read_through ⟨[("students:/api/students", jsonToks (Json.jbool true))], [], 0⟩
      "/api/students" Json.jnull (Json.jbool false) (Json.jbool true) 60).1 (by decide),
    (C1_read_through ⟨[], [], 0⟩ "/api/students" Json.jnull (Json.jbool false)
      Json.jnull 60).2 (by decide)⟩

/-- C2: after any successful mutation (create, update or delete), whose
awaited invalidation ran before the response, a GET for the affected
resource id is a cache miss: the downstream handler runs and its fresh
payload — never data cached before the mutation — is returned. -/
theorem C2_no_stale_read_after_mutation (m : Mutation) (id : String) (s : MockState)
    (freshMut freshGet : Json) (e : Nat) :
    (cacheData mockClient e "GET" ("/api/students/" ++ id) freshGet
        (runMutation mockClient m freshMut s).2).body = freshGet ∧
    (cacheData mockClient e "GET" ("/api/students/" ++ id) freshGet
        (runMutation mockClient m freshMut s).2).downstreamInvoked = true := by
  have hkey : storeGet (runMutation mockClient m freshMut s).2.store
      (cacheKeyOf ("/api/students/" ++ id)) = none := by
    simp only [runMutation]
    apply foldl_clearCache_none
    exact ⟨collectionPattern, by cases m <;> simp [patternsOf],
      patMatches_collection_id_key id⟩
  rw [cacheData_mock_miss e _ freshGet _ hkey]
  constructor <;> trivial

/-- C3: a failure of any cache operation never fails a request and never
alters the delivered response: a failed lookup degrades to a miss and the
downstream handler serves the request without write-back wrapping; on a
miss the delivered payload is independent of the write-back `set`'s
outcome; and a mutation's response is its fresh payload regardless of the
invalidation's cache operations. -/
theorem C3_cache_failures_invisible :
    (∀ (σ : Type) (C : ClientOps σ) (s s' : σ) (url : String) (d : Json) (e : Nat),
      C.get (cacheKeyOf url) s = (.err, s') →
      cacheData C e "GET" url d s = ⟨d, true, s'⟩) ∧
    (∀ (σ : Type) (C : ClientOps σ) (s s' : σ) (url : String) (d : Json) (e : Nat),
      C.get (cacheKeyOf url) s = (.ok none, s') →
      (cacheData C e "GET" url d s).body = d ∧
      (cacheData C e "GET" url d s).downstreamInvoked = true) ∧
    (∀ (σ : Type) (C : ClientOps σ) (m : Mutation) (fresh : Json) (s : σ),
      (runMutation C m fresh s).1 = fresh) := by
  refine ⟨?_, ?_, ?_⟩
  · intro σ C s s' url d e h
    rw [cacheData, if_neg (by simp)]
    simp only [h]
  · intro σ C s s' url d e h
    rw [cacheData, if_neg (by simp)]
    simp only [h]
    constructor <;> trivial
  · intro σ C m fresh s
    rfl

/-- Witness for C3 with concrete failing clients: every operation
failing, and a missing lookup combined with a failing write-back. -/
theorem C3_cache_failures_invisible_witness :
    cacheData failClient 60 "GET" "/api/students" Json.jnull () = ⟨Json.jnull, true, ()⟩ ∧
    ((cacheData missFailSetClient 60 "GET" "/api/students" Json.jnull ()).body =
        Json.jnull ∧
      (cacheData missFailSetClient 60 "GET" "/api/students" Json.jnull
        ()).downstreamInvoked = true) ∧
    (runMutation failClient (Mutation.mupdate "1") Json.jnull ()).1 = Json.jnull :=
  ⟨C3_cache_failures_invisible.1 Unit failClient () () "/api/students" Json.jnull 60 rfl,
    C3_cache_failures_invisible.2.1 Unit missFailSetClient () () "/api/students"
      Json.jnull 60 rfl,
    C3_cache_failures_invisible.2.2 Unit failClient (Mutation.mupdate "1") Json.jnull ()⟩

/-- C10: a stored empty string is collapsed to the absent indicator by
the fallback `get` (`mockStorage.get(key) || null`), and the middleware
treats a falsy cached string — the empty string — as a miss: the
downstream handler is invoked and the write-back is attempted. -/
theorem C10_empty_string_is_miss :
    (∀ (s : MockState) (k : String), storeGet s.store k = some [] →
      mockClient.get k s = (.ok none, s)) ∧
    (∀ (σ : Type) (C : ClientOps σ) (s s' : σ) (url : String) (d : Json) (e : Nat),
      C.get (cacheKeyOf url) s = (.ok (some []), s') →
      cacheData C e "GET" url d s =
        ⟨d, true, (C.set (cacheKeyOf url) (jsonToks d) (some e) s').2⟩) := by
  constructor
  · intro s k h
    simp [mockClient, mockGet, h]
  · intro σ C s s' url d e h
    rw [cacheData, if_neg (by simp)]
    simp only [h]
    rfl

/-- Witness for C10: an empty-string entry in the fallback store, and
the middleware on a client that returns the empty string. -/
theorem C10_empty_string_is_miss_witness :
    mockClient.get "k" ⟨[("k", [])], [], 0⟩ = (.ok none, ⟨[("k", [])], [], 0⟩) ∧
    cacheData emptyHitFailSetClient 60 "GET" "/api/students" Json.jnull () =
      ⟨Json.jnull, true,
        (emptyHitFailSetClient.set (cacheKeyOf "/api/students")
          (jsonToks Json.jnull) (some 60) ()).2⟩ :=
  ⟨C10_empty_string_is_miss.1 ⟨[("k", [])], [], 0⟩ "k" (by decide),
    C10_empty_string_is_miss.2 Unit emptyHitFailSetClient () () "/api/students"
      Json.jnull 60 rfl⟩

/-- C4 counterexample: after `set("k", "")` (the empty string is a legal
value), the fallback `get` returns the absent indicator instead of the
stored value, so read-your-writes does not hold for every value. -/
theorem C4_counterexample :
    (mockClient.get "k" (mockClient.set "k" [] none ⟨[], [], 0⟩).2).1 = .ok none ∧
    (mockClient.get "k" (mockClient.set "k" [] none ⟨[], [], 0⟩).2).1 ≠
      .ok (some ([] : JStr)) := by decide

/-- C4 amended: the fallback store satisfies read-your-writes for every
non-empty value (the empty string is read back as absent): after
`set(k, v)` with `v` non-empty, `get(k)` returns `v`; `del` on a present
key returns 1 and a subsequent `get` returns the absent indicator; `del`
on an absent key returns 0; and `get` never throws. -/
theorem C4_read_your_writes (s : MockState) (k : String) (v : JStr) (ex : Option Nat) :
    (v ≠ [] → (mockClient.get k (mockClient.set k v ex s).2).1 = .ok (some v)) ∧
    ((storeGet s.store k).isSome = true →
      (mockClient.del k s).1 = .ok 1 ∧
      (mockClient.get k (mockClient.del k s).2).1 = .ok none) ∧
    ((storeGet s.store k).isSome = false → (mockClient.del k s).1 = .ok 0) ∧
    (mockClient.get k s).1 ≠ .err := by
  refine ⟨?_, ?_, ?_, ?_⟩
  · intro hv
    cases v with
    | nil => exact absurd rfl hv
    | cons a t =>
      have h2 : (mockSet k (a :: t) ex s).2.store = storeSet s.store k (a :: t) := by
        cases ex <;> rfl
      show (mockGet k (mockSet k (a :: t) ex s).2).1 = .ok (some (a :: t))
      simp [mockGet, h2, storeGet_storeSet_self]
  · intro hp
    constructor
    · simp [mockClient, mockDel, hp]
    · simp [mockClient, mockGet, mockDel, storeGet_storeDel_self]
  · intro hp
    simp [mockClient, mockDel, hp]
  · simp [mockClient, mockGet]

/-- Witness for the amended C4 on concrete stores. -/
theorem C4_read_your_writes_witness :
    (mockClient.get "k" (mockClient.set "k" [JTok.tnull] none
      (⟨[], [], 0⟩ : MockState)).2).1 = .ok (some [JTok.tnull]) ∧
    ((mockClient.del "k" ⟨[("k", [JTok.tnull])], [], 0⟩).1 = .ok 1 ∧
      (mockClient.get "k" (mockClient.del "k"
        (⟨[("k", [JTok.tnull])], [], 0⟩ : MockState)).2).1 = .ok none) ∧
    (mockClient.del "k" (⟨[], [], 0⟩ : MockState)).1 = .ok 0 ∧
    (mockClient.get "k" (⟨[], [], 0⟩ : MockState)).1 ≠ .err :=
  ⟨(C4_read_your_writes ⟨[], [], 0⟩ "k" [JTok.tnull] none).1 (by decide),
    (C4_read_your_writes ⟨[("k", [JTok.tnull])], [], 0⟩ "k" [JTok.tnull] none).2.1
      (by decide),
    (C4_read_your_writes ⟨[], [], 0⟩ "k" [JTok.tnull] none).2.2.1 (by decide),
    (C4_read_your_writes ⟨[], [], 0⟩ "k" [JTok.tnull] none).2.2.2⟩

/-- C5: the fallback `listKeys` with a single-wildcard pattern (all other
characters plain) performs an anchored full-key match — a key matches
exactly when it is `pre ++ anything ++ suf` — and on the spec's seeded
store the collection pattern returns exactly the two student keys. -/
theorem C5_listKeys_anchored_single_wildcard :
    (∀ (pre suf key : String),
      (∀ c ∈ pre.toList, plainChar c) → (∀ c ∈ suf.toList, plainChar c) →
      (patMatches (pre ++ "*" ++ suf) key = true ↔
        ∃ mid : List Char, key.toList = pre.toList ++ mid ++ suf.toList)) ∧
    (mockKeys collectionPattern seededState).1 =
      .ok ["students:/api/students", "students:/api/students/123"] := by
  constructor
  · intro pre suf key hpre hsuf
    have hpat : (pre ++ "*" ++ suf).toList = pre.toList ++ '*' :: suf.toList := by
      rw [toList_append, toList_append, List.append_assoc]
      rfl
    have hps : '*' ∉ pre.toList := fun hc => (hpre '*' hc).2.1 rfl
    have hrep : replaceFirstStar (pre.toList ++ '*' :: suf.toList) =
        pre.toList ++ '.' :: '*' :: suf.toList := by
      rw [replaceFirstStar_append pre.toList ('*' :: suf.toList) hps]
      rfl
    have hr : compileRegex (replaceFirstStar (pre ++ "*" ++ suf).toList) =
        some (litsOf pre.toList ++ (Atom.anyChar, Quant.star) :: litsOf suf.toList) := by
      rw [hpat]
      exact compilePattern_single_star pre.toList suf.toList hpre hsuf
    have hb : '|' ∉ replaceFirstStar (pre ++ "*" ++ suf).toList := by
      rw [hpat, hrep]
      intro hc
      rcases List.mem_append.mp hc with hcl | hcr
      · exact absurd (by decide : '|' ∈ metaChars) (hpre '|' hcl).2.2.2.2
      · rcases List.mem_cons.mp hcr with h1 | h1c
        · exact absurd h1 (by decide)
        · rcases List.mem_cons.mp h1c with h2 | h2c
          · exact absurd h2 (by decide)
          · exact absurd (by decide : '|' ∈ metaChars) (hsuf '|' h2c).2.2.2.2
    rw [patMatches_of_single _ _ hb hr key]
    constructor
    · intro h
      obtain ⟨cs', hcs, hstar⟩ := (rmatch_lits_append _ _ _).mp h
      obtain ⟨l, r, hlr, _, hsuf'⟩ := (rmatch_star_iff _ _ _).mp hstar
      rw [rmatch_lits_iff] at hsuf'
      refine ⟨l, ?_⟩
      rw [hcs, hlr, hsuf', List.append_assoc]
    · rintro ⟨mid, hmid⟩
      apply (rmatch_lits_append _ _ _).mpr
      refine ⟨mid ++ suf.toList, by rw [hmid, List.append_assoc], ?_⟩
      apply (rmatch_star_iff _ _ _).mpr
      exact ⟨mid, suf.toList, rfl, by simp [amatch], (rmatch_lits_iff _ _).mpr rfl⟩
  · decide

/-- Witness for C5: the single-wildcard characterization applied to the
concrete pattern `a*b` and key `axb`. -/
theorem C5_listKeys_witness :
    (patMatches ("a" ++ "*" ++ "b") "axb" = true ↔
      ∃ mid : List Char, "axb".toList = "a".toList ++ mid ++ "b".toList) ∧
    (mockKeys collectionPattern seededState).1 =
      .ok ["students:/api/students", "students:/api/students/123"] :=
  ⟨C5_listKeys_anchored_single_wildcard.1 "a" "b" "axb" (by decide) (by decide),
    C5_listKeys_anchored_single_wildcard.2⟩

/-- C6: after any successful mutation, each derived invalidation pattern
has had its matching keys enumerated and deleted: every fallback-store
entry whose key matches one of the mutation's patterns (the collection
pattern, plus the single-resource pattern for update/delete) is absent
afterwards. -/
theorem C6_invalidation_removes_all_matches (m : Mutation) (fresh : Json)
    (s : MockState) (key : String)
    (h : ∃ p ∈ patternsOf m, patMatches p key = true) :
    storeGet (runMutation mockClient m fresh s).2.store key = none := by
  simp only [runMutation]
  exact foldl_clearCache_none (patternsOf m) s key h

/-- Witness for C6: an update of id 123 on the seeded store removes the
cached single-resource read for id 123. -/
theorem C6_invalidation_witness :
    (∃ p ∈ patternsOf (Mutation.mupdate "123"),
      patMatches p "students:/api/students/123" = true) ∧
    storeGet (runMutation mockClient (Mutation.mupdate "123") Json.jnull
      seededState).2.store "students:/api/students/123" = none :=
  ⟨by decide,
    C6_invalidation_removes_all_matches (Mutation.mupdate "123") Json.jnull seededState
      "students:/api/students/123" (by decide)⟩

/-- C7 counterexample: overwriting before expiry with a shorter TTL
(original TTL 10, overwrite TTL 1): after 2 seconds — well before the
original 10-second removal — the key is already absent, so the removal
that fired is the overwriting writer's, not (only) the original one. -/
theorem C7_counterexample :
    (mockClient.get "k" (elapse 2 (mockClient.set "k" [JTok.tbool true] (some 1)
        (mockClient.set "k" [JTok.tbool false] (some 10) ⟨[], [], 0⟩).2).2)).1 =
      .ok none ∧ (2 : Nat) < 10 := by decide

/-- C7 amended: every `set` with a TTL schedules its own deferred removal
and an overwrite cancels nothing: an entry with TTL `t1` is absent after
`t1` seconds even if overwritten meanwhile, and after an overwrite with
TTL `t2` the key is absent exactly once the earliest of the two pending
removals has come due (until then the overwriting value is readable). -/
theorem C7_ttl_expiry (s : MockState) (k : String) (v1 v2 : JStr)
    (t1 t2 u : Nat) (hv : v2 ≠ []) (ht : ∀ tm ∈ s.timers, tm.2 ≠ k) :
    ((mockClient.set k v1 (some t1) s).2.timers = s.timers ++ [(s.now + t1, k)]) ∧
    (t1 ≤ u →
      (mockClient.get k (elapse u (mockClient.set k v1 (some t1) s).2)).1 = .ok none) ∧
    ((mockClient.get k (elapse u (mockClient.set k v2 (some t2)
        (mockClient.set k v1 (some t1) s).2).2)).1 =
      .ok (if t1 ≤ u ∨ t2 ≤ u then none else some v2)) := by
  have hts : ∀ X : Nat,
      s.timers.any (fun tm => decide (tm.1 ≤ X) && tm.2 == k) = false := by
    intro X
    rw [List.any_eq_false]
    intro tm htm
    have hne := ht tm htm
    simp [hne]
  refine ⟨rfl, ?_, ?_⟩
  · intro hu
    have hrec : (mockClient.set k v1 (some t1) s).2 =
        { s with store := storeSet s.store k v1
                 timers := s.timers ++ [(s.now + t1, k)] } := rfl
    have hd1 : decide (s.now + t1 ≤ s.now + u) = true :=
      decide_eq_true (Nat.add_le_add_left hu s.now)
    have hcond : ((s.timers ++ [(s.now + t1, k)]).any
        (fun tm => decide (tm.1 ≤ s.now + u) && tm.2 == k)) = true := by
      simp only [List.any_append, List.any_cons, List.any_nil, hts, hd1,
        beq_self_eq_true, Bool.and_true, Bool.true_and, Bool.or_false, Bool.false_or]
    have hnone : storeGet (elapse u (mockClient.set k v1 (some t1) s).2).store k =
        none := by
      rw [hrec, storeGet_elapse]
      rw [if_pos hcond]
    show (mockGet k (elapse u (mockClient.set k v1 (some t1) s).2)).1 = .ok none
    simp [mockGet, hnone]
  · have hrec : (mockClient.set k v2 (some t2) (mockClient.set k v1 (some t1) s).2).2 =
        { s with store := storeSet (storeSet s.store k v1) k v2
                 timers := (s.timers ++ [(s.now + t1, k)]) ++ [(s.now + t2, k)] } := rfl
    by_cases hdue : t1 ≤ u ∨ t2 ≤ u
    · have hcond : (((s.timers ++ [(s.now + t1, k)]) ++ [(s.now + t2, k)]).any
          (fun tm => decide (tm.1 ≤ s.now + u) && tm.2 == k)) = true := by
        rcases hdue with h | h
        · have hd : decide (s.now + t1 ≤ s.now + u) = true :=
            decide_eq_true (Nat.add_le_add_left h s.now)
          simp only [List.any_append, List.any_cons, List.any_nil, hts, hd,
            beq_self_eq_true, Bool.and_true, Bool.true_and, Bool.or_false,
            Bool.false_or, Bool.true_or]
        · have hd : decide (s.now + t2 ≤ s.now + u) = true :=
            decide_eq_true (Nat.add_le_add_left h s.now)
          simp only [List.any_append, List.any_cons, List.any_nil, hts, hd,
            beq_self_eq_true, Bool.and_true, Bool.true_and, Bool.or_false,
            Bool.false_or, Bool.or_true]
      have hnone : storeGet (elapse u (mockClient.set k v2 (some t2)
          (mockClient.set k v1 (some t1) s).2).2).store k = none := by
        rw [hrec, storeGet_elapse]
        rw [if_pos hcond]
      rw [if_pos hdue]
      show (mockGet k (elapse u (mockClient.set k v2 (some t2)
        (mockClient.set k v1 (some t1) s).2).2)).1 = .ok none
      simp [mockGet, hnone]
    · push_neg at hdue
      have hd1 : decide (s.now + t1 ≤ s.now + u) = false :=
        decide_eq_false (by omega)
      have hd2 : decide (s.now + t2 ≤ s.now + u) = false :=
        decide_eq_false (by omega)
      have hcond : (((s.timers ++ [(s.now + t1, k)]) ++ [(s.now + t2, k)]).any
          (fun tm => decide (tm.1 ≤ s.now + u) && tm.2 == k)) = false := by
        simp only [List.any_append, List.any_cons, List.any_nil, hts, hd1, hd2,
          Bool.false_and, Bool.or_false, Bool.false_or]
      have hsome : storeGet (elapse u (mockClient.set k v2 (some t2)
          (mockClient.set k v1 (some t1) s).2).2).store k = some v2 := by
        rw [hrec, storeGet_elapse]
        rw [if_neg (by rw [hcond]; exact Bool.false_ne_true)]
        exact storeGet_storeSet_self _ _ _
      rw [if_neg (by omega)]
      show (mockGet k (elapse u (mockClient.set k v2 (some t2)
        (mockClient.set k v1 (some t1) s).2).2)).1 = .ok (some v2)
      cases v2 with
      | nil => exact absurd rfl hv
      | cons a t => simp [mockGet, hsome]

/-- Witness for the amended C7: scheduling, plain expiry (TTL 10, 12s
elapsed) and the overwrite characterization (TTLs 10 and 3, 5s elapsed). -/
theorem C7_ttl_expiry_witness :
    ((mockClient.set "k" [JTok.tnull] (some 10) (⟨[], [], 0⟩ : MockState)).2.timers =
      ([] : List (Nat × String)) ++ [(0 + 10, "k")]) ∧
    ((mockClient.get "k" (elapse 12 (mockClient.set "k" [JTok.tnull] (some 10)
      (⟨[], [], 0⟩ : MockState)).2)).1 = .ok none) ∧
    ((mockClient.get "k" (elapse 5 (mockClient.set "k" [JTok.tbool true] (some 3)
        (mockClient.set "k" [JTok.tnull] (some 10) (⟨[], [], 0⟩ : MockState)).2).2)).1 =
      .ok (if (10 : Nat) ≤ 5 ∨ (3 : Nat) ≤ 5 then none else some [JTok.tbool true])) :=
  ⟨(C7_ttl_expiry ⟨[], [], 0⟩ "k" [JTok.tnull] [JTok.tbool true] 10 3 12
      (by decide) (by decide)).1,
    (C7_ttl_expiry ⟨[], [], 0⟩ "k" [JTok.tnull] [JTok.tbool true] 10 3 12
      (by decide) (by decide)).2.1 (by decide),
    (C7_ttl_expiry ⟨[], [], 0⟩ "k" [JTok.tnull] [JTok.tbool true] 10 3 5
      (by decide) (by decide)).2.2⟩

/-- C8 counterexample: a URL-controlled id containing the regex
alternation metacharacter gives `new RegExp('^students:/api/students/|x$')`,
whose second branch `x$` is not start-anchored, so the derived
single-resource invalidation pattern matches the key `zx` of another
namespace — refuting "the invalidation patterns never match keys of
another namespace". -/
theorem C8_counterexample :
    idPattern "|x" ∈ patternsOf (Mutation.mupdate "|x") ∧
    patMatches (idPattern "|x") "zx" = true ∧
    "students:".toList.isPrefixOf "zx".toList = false := by decide

/-- C8 amended: the middleware's cache key is the fixed namespace marker
`"students:"` followed by the full original URL (one key per unique
retrieval request), so every cache key lives in the namespace, and every
invalidation pattern begins with the namespace marker.  The collection
pattern matches only keys inside the namespace, and so does a
single-resource pattern whose id consists of regex-meaningless
characters; an id containing the alternation metacharacter defeats the
wrapping anchors (they bind only to the outermost alternation branches)
and such a pattern can match keys outside the namespace, as the
counterexample shows. -/
theorem C8_namespace_partition :
    (∀ url : String, cacheKeyOf url = "students:" ++ url) ∧
    (∀ url1 url2 : String, cacheKeyOf url1 = cacheKeyOf url2 → url1 = url2) ∧
    (∀ url : String, "students:".toList <+: (cacheKeyOf url).toList) ∧
    (∀ (m : Mutation) (p : String), p ∈ patternsOf m →
      "students:".toList <+: p.toList) ∧
    (∀ key : String, patMatches collectionPattern key = true →
      "students:".toList <+: key.toList) ∧
    (∀ id key : String, (∀ c ∈ id.toList, plainChar c) →
      patMatches (idPattern id) key = true →
      "students:".toList <+: key.toList) := by
  have hid : ∀ id : String, "students:".toList <+: (idPattern id).toList := by
    intro id
    rw [idPattern, toList_append]
    exact ⟨"/api/students/".toList ++ id.toList, by rw [← List.append_assoc]; rfl⟩
  have hcoll : "students:".toList <+: collectionPattern.toList :=
    ⟨"/api/students*".toList, rfl⟩
  refine ⟨fun url => rfl, ?_, ?_, ?_, ?_, ?_⟩
  · intro u1 u2 h
    apply toList_injective
    have h2 := congrArg String.toList h
    rw [cacheKeyOf, cacheKeyOf, toList_append, toList_append] at h2
    exact List.append_cancel_left h2
  · intro url
    rw [cacheKeyOf, toList_append]
    exact ⟨url.toList, rfl⟩
  · intro m p hp
    cases m with
    | mcreate =>
      simp only [patternsOf, List.mem_singleton] at hp
      rw [hp]; exact hcoll
    | mupdate id =>
      simp only [patternsOf, List.mem_cons, List.not_mem_nil, or_false] at hp
      rcases hp with rfl | rfl
      · exact hid id
      · exact hcoll
    | mdelete id =>
      simp only [patternsOf, List.mem_cons, List.not_mem_nil, or_false] at hp
      rcases hp with rfl | rfl
      · exact hid id
      · exact hcoll
  · intro key hm
    exact ns_head_of_collection_head _ ((patMatches_collection_iff key).mp hm)
  · intro id key hplain hm
    exact ns_head_of_collection_head _ (patMatches_idPattern_head id key hplain hm)

/-- Witness for the amended C8 at concrete inputs. -/
theorem C8_namespace_partition_witness :
    cacheKeyOf "/api/students?grade=5" = "students:" ++ "/api/students?grade=5" ∧
    "/x" = "/x" ∧
    "students:".toList <+: (cacheKeyOf "/api/students").toList ∧
    "students:".toList <+: (idPattern "1").toList ∧
    "students:".toList <+: "students:/api/students/9".toList ∧
    "students:".toList <+: "students:/api/students/1".toList :=
  ⟨C8_namespace_partition.1 "/api/students?grade=5",
    C8_namespace_partition.2.1 "/x" "/x" rfl,
    C8_namespace_partition.2.2.1 "/api/students",
    C8_namespace_partition.2.2.2.1 (Mutation.mupdate "1") (idPattern "1") (by decide),
    C8_namespace_partition.2.2.2.2.1 "students:/api/students/9" (by decide),
    C8_namespace_partition.2.2.2.2.2 "1" "students:/api/students/1"
      (by decide) (by decide)⟩

/-- C9 counterexample: the pattern `a*b*c` contains a second wildcard;
the key `abbc` contains no asterisk at all, yet the fallback `keys`
returns it — under the claimed semantics (later wildcard characters
matched as literal characters) the key would have to contain `b*c`
literally and is rejected. -/
theorem C9_counterexample :
    (mockKeys "a*b*c" c9State).1 = .ok ["abbc"] ∧
    literalOneWildcardMatch "a*b*c" "abbc" = false := by decide

/-- C9 amended: only the first wildcard is substituted by the
any-characters matcher; the rest of the pattern is inserted verbatim into
the anchored regex, so a later `*` acts as a zero-or-more regex
quantifier on the preceding atom (for `a*b*c`: any run of `b`s), and
adjacent wildcards make the regex construction fail, failing the
enumeration. -/
theorem C9_second_wildcard_is_quantifier (key : String) :
    (patMatches "a*b*c" key = true ↔
      ∃ mid bs : List Char, key.toList = 'a' :: (mid ++ (bs ++ ['c'])) ∧
        ∀ c ∈ bs, c = 'b') ∧
    compilePattern "ab**" = none := by
  constructor
  · have hpm : patMatches "a*b*c" key =
        rmatch [(Atom.lit 'a', Quant.one), (Atom.anyChar, Quant.star),
          (Atom.lit 'b', Quant.star), (Atom.lit 'c', Quant.one)] key.toList :=
      patMatches_of_single _ _ (by decide) (by decide) key
    rw [hpm]
    constructor
    · intro h
      cases hk : key.toList with
      | nil => rw [hk, rmatch_one_nil] at h; exact absurd h (by simp)
      | cons c cs =>
        rw [hk, rmatch_one_cons] at h
        obtain ⟨hc, hrest⟩ := (by simpa using h : _ ∧ _)
        have hca : c = 'a' := by
          have h5 : 'a' = c := by simpa [amatch] using hc
          exact h5.symm
        obtain ⟨mid, r, hmr, _, hr⟩ := (rmatch_star_iff _ _ _).mp hrest
        obtain ⟨bs, r2, hbs, hbchars, hr2⟩ := (rmatch_star_iff _ _ _).mp hr
        have hr2' : r2 = ['c'] := by
          have h4 : rmatch (litsOf ['c']) r2 = true := by
            rw [show litsOf ['c'] = [(Atom.lit 'c', Quant.one)] from rfl]
            exact hr2
          exact (rmatch_lits_iff _ _).mp h4
        refine ⟨mid, bs, ?_, ?_⟩
        · rw [hca, hmr, hbs, hr2']
        · intro c hcb
          have h6 := hbchars c hcb
          have h7 : 'b' = c := by simpa [amatch] using h6
          exact h7.symm
    · rintro ⟨mid, bs, hkey, hbs⟩
      have h1 : rmatch [(Atom.lit 'c', Quant.one)] ['c'] = true := by
        rw [show [(Atom.lit 'c', Quant.one)] = litsOf ['c'] from rfl]
        exact (rmatch_lits_iff _ _).mpr rfl
      have h2 : rmatch ((Atom.lit 'b', Quant.star) :: [(Atom.lit 'c', Quant.one)])
          (bs ++ ['c']) = true :=
        (rmatch_star_iff _ _ _).mpr
          ⟨bs, ['c'], rfl, by intro c hc; simp [amatch, hbs c hc], h1⟩
      have h3 : rmatch ((Atom.anyChar, Quant.star) ::
          ((Atom.lit 'b', Quant.star) :: [(Atom.lit 'c', Quant.one)]))
          (mid ++ (bs ++ ['c'])) = true :=
        (rmatch_star_iff _ _ _).mpr ⟨mid, bs ++ ['c'], rfl, by simp [amatch], h2⟩
      rw [hkey, rmatch_one_cons, h3, Bool.and_true]
      rfl
  · decide

end StudentCache
